import Mathlib

/-!
Verification of the portfolio accounting engine in `src/utils/portfolio.py`
(FIFO lot matching, valuation, aggregate metrics, XIRR cash-flow setup and
solver dispatch).

Conventions of the embedding:
* Python floats are modelled as rationals (`ℚ`); the IEEE values NaN and ±inf,
  which arise only as solver outputs and missing prices, are modelled
  explicitly (`FloatVal`, `Option ℚ`).
* Calendar dates are modelled as integer day numbers, so `(d1 - d2).days`
  becomes integer subtraction.
* The per-ticker lot dictionary (a Python `dict`, insertion ordered) is an
  association list; new keys are appended at the end, updates are in place.
* The external scipy root finders (`optimize.newton`, `optimize.brentq`) are
  parameters of the embedding: each receives the locally built `xirr_equation`
  closure (embedded as an `ℝ → ℝ` function, real powers for the float `**`)
  together with its seed or bracket, and returns either a value (possibly
  NaN/inf) or raises, which is modelled as `Except Unit FloatVal`.
* `df.sort_values('date')` is modelled by an insertion sort on the date field;
  see the discussion next to `sortByDate`.
-/

namespace Portfolio

/-- Transaction type enum: the code compares `row['transaction_type']`
against the strings `'BUY'` and `'SELL'`. -/
inductive TType where
  | BUY : TType
  | SELL : TType
deriving DecidableEq

/-- One ledger record, fields as in the validated transactions DataFrame. -/
structure Txn where
  ticker : String
  date : Int
  transaction_type : TType
  quantity : ℚ
  price : ℚ
deriving DecidableEq

/-- A lot is a pair `(quantity, price)`, as in `calculate_holdings_fifo`. -/
abbrev Lot := ℚ × ℚ

/-- The `lots` dictionary: ticker keyed, insertion ordered. -/
abbrev LotsMap := List (String × List Lot)

/-- Embedding of `df.sort_values('date')`: an insertion sort on the date
field.  This particular sort keeps same-date rows in input order; the Python
call uses the pandas default sort kind, whose tie order is an external
library detail (see the development notes on the sorting claim). -/
def insertByDate (t : Txn) : List Txn → List Txn
  | [] => [t]
  | u :: us => if u.date < t.date then u :: insertByDate t us else t :: u :: us

def sortByDate : List Txn → List Txn
  | [] => []
  | t :: ts => insertByDate t (sortByDate ts)

/-- `lots[ticker]` lookup; `[]` when the key is absent. -/
def findLots (m : LotsMap) (tk : String) : List Lot :=
  match m.find? (fun e => e.1 == tk) with
  | some e => e.2
  | none => []

/-- `if ticker not in lots: lots[ticker] = []` — dict insertion appends. -/
def ensureKey (m : LotsMap) (tk : String) : LotsMap :=
  if m.any (fun e => e.1 == tk) then m else m ++ [(tk, [])]

/-- In-place update of the entry for `tk`. -/
def updateLots (m : LotsMap) (tk : String) (f : List Lot → List Lot) : LotsMap :=
  m.map (fun e => if e.1 == tk then (e.1, f e.2) else e)

/-- The SELL loop of `calculate_holdings_fifo`:
`while remaining_quantity > 0 and lots[ticker]: ...` consuming from the front,
popping a lot whose quantity is `<=` the remainder and otherwise reducing the
front lot in place. -/
def sellFromLots : List Lot → ℚ → List Lot
  | [], _ => []
  | (lq, lp) :: rest, remaining =>
    if remaining ≤ 0 then (lq, lp) :: rest
    else if lq ≤ remaining then sellFromLots rest (remaining - lq)
    else (lq - remaining, lp) :: rest

/-- One iteration of the transaction loop in `calculate_holdings_fifo`. -/
def processTxn (m : LotsMap) (t : Txn) : LotsMap :=
  let m' := ensureKey m t.ticker
  match t.transaction_type with
  | .BUY => updateLots m' t.ticker (fun lots => lots ++ [(t.quantity, t.price)])
  | .SELL => updateLots m' t.ticker (fun lots => sellFromLots lots t.quantity)

/-- Output row of the FIFO engine. -/
structure Holding where
  ticker : String
  quantity : ℚ
  avg_cost_basis : ℚ
deriving DecidableEq

/-- `sum(qty for qty, _ in ticker_lots)` -/
def totalQ (lots : List Lot) : ℚ := (lots.map Prod.fst).sum

/-- `sum(qty * price for qty, price in ticker_lots)` -/
def totalCost (lots : List Lot) : ℚ := (lots.map (fun l => l.1 * l.2)).sum

/-- The emission loop at the end of `calculate_holdings_fifo`: iterate the
dict in insertion order, emit only tickers with positive total quantity. -/
def holdingsOfLots (m : LotsMap) : List Holding :=
  m.filterMap (fun e =>
    if 0 < totalQ e.2 then some ⟨e.1, totalQ e.2, totalCost e.2 / totalQ e.2⟩
    else none)

/-- `calculate_holdings_fifo(transactions_df)`.  `none` models a `None`
DataFrame argument; the empty output DataFrame is the empty list. -/
def calculate_holdings_fifo (transactions : Option (List Txn)) : List Holding :=
  match transactions with
  | none => []
  | some ts =>
    if ts.length = 0 then []
    else holdingsOfLots ((sortByDate ts).foldl processTxn [])

/-! ### Valuation engine (`calculate_portfolio_value`) -/

/-- Output row of the valuation engine.  A ticker missing from the price map
gives NaN in the Python DataFrame; the arithmetic on NaN propagates, which the
embedding models with `Option ℚ` (`none` = NaN/undefined). -/
structure ValuedHolding where
  ticker : String
  quantity : ℚ
  avg_cost_basis : ℚ
  current_price : Option ℚ
  current_value : Option ℚ
  unrealized_pl : Option ℚ
  unrealized_pl_percent : Option ℚ
deriving DecidableEq

/-- `df['ticker'].map(prices_dict)`: lookup, missing key gives NaN (`none`). -/
def lookupPrice (prices : List (String × ℚ)) (tk : String) : Option ℚ :=
  match prices.find? (fun e => e.1 == tk) with
  | some e => some e.2
  | none => none

/-- `calculate_portfolio_value(holdings_df, prices_dict)`. -/
def calculate_portfolio_value (holdings : List Holding)
    (prices : List (String × ℚ)) : List ValuedHolding :=
  if holdings.isEmpty then []
  else holdings.map (fun h =>
    let cp := lookupPrice prices h.ticker
    let cv := cp.map (fun p => h.quantity * p)
    let pl := cv.map (fun v => v - h.quantity * h.avg_cost_basis)
    let plp := pl.map (fun x => x / (h.quantity * h.avg_cost_basis) * 100)
    ⟨h.ticker, h.quantity, h.avg_cost_basis, cp, cv, pl, plp⟩)

/-! ### XIRR (`calculate_xirr`) -/

/-- The value a scipy root finder can hand back: a finite float, NaN or an
infinity (the latter two are what `np.isnan` / `np.isinf` test for). -/
inductive FloatVal where
  | fin : ℚ → FloatVal
  | nan : FloatVal
  | inf : FloatVal
deriving DecidableEq

/-- `result * 100` on a possibly non-finite solver value. -/
def FloatVal.times100 : FloatVal → FloatVal
  | .fin q => .fin (q * 100)
  | .nan => .nan
  | .inf => .inf

/-- A solver call either returns a value or raises (`Except.error`). -/
abbrev SolverResult := Except Unit FloatVal

/-- The local closure `xirr_equation(rate)` of `calculate_xirr`: starting
from `result = 0`, accumulate `cf / (1 + rate) ** (days[i] / 365.0)` over the
cash flows and their day offsets (the two lists are built in lockstep by the
same loop, so the indexed access `days[i]` is the pointwise pairing `zip`).
The float power is embedded as the real power. -/
noncomputable def xirrEquation (cfs : List ℚ) (days : List Int) : ℝ → ℝ :=
  fun rate =>
    ((cfs.zip days).map
      (fun p => (p.1 : ℝ) / (1 + rate) ^ ((p.2 : ℝ) / 365))).sum

/-- `optimize.newton(f, x0=seed)`: receives the equation and the seed. -/
abbrev NewtonSolver := (ℝ → ℝ) → ℚ → SolverResult

/-- `optimize.brentq(f, lo, hi)`: receives the equation and the bracket. -/
abbrev BrentqSolver := (ℝ → ℝ) → ℚ → ℚ → SolverResult

/-- `amount = row['quantity'] * row['price']` -/
def txnAmount (t : Txn) : ℚ := t.quantity * t.price

/-- The signed cash flow of one transaction: negative for BUY (money out),
positive otherwise (the `else` branch covers SELL). -/
def txnCashFlow (t : Txn) : ℚ :=
  match t.transaction_type with
  | .BUY => -(txnAmount t)
  | .SELL => txnAmount t

/-- The transaction loop of `calculate_xirr`, appending to `cash_flows` and
`dates` in ledger order. -/
def xirrLoop (ts : List Txn) : List ℚ × List Int :=
  ts.foldl (fun acc t => (acc.1 ++ [txnCashFlow t], acc.2 ++ [t.date])) ([], [])

/-- Cash flows and dates after the optional terminal flow:
`if current_value > 0:` append `current_value` dated `datetime.now()`. -/
def xirrFlows (ts : List Txn) (current_value : ℚ) (now : Int) :
    List ℚ × List Int :=
  let base := xirrLoop ts
  if 0 < current_value then (base.1 ++ [current_value], base.2 ++ [now]) else base

/-- `min(dates)` (only ever called on a non-empty list in the code). -/
def listMinInt : List Int → Int
  | [] => 0
  | d :: ds => ds.foldl min d

/-- `days = [(date - min_date).days for date in dates]` -/
def daysSinceFirst (dates : List Int) : List Int :=
  dates.map (fun d => d - listMinInt dates)

/-- The post-solver steps shared by both stages: multiply by 100, then return
`None` when the result is NaN or infinite. -/
def rateToResult (v : FloatVal) : Option ℚ :=
  match v.times100 with
  | .fin x => some x
  | .nan => none
  | .inf => none

/-- `calculate_xirr(transactions_df, current_value)`, parameterised by the two
scipy solvers and the wall-clock day `now`.  Newton is seeded at `0.1`; on a
raise the fallback is `brentq` on the bracket `(-0.999, 10)`; every raise of
the fallback is caught and becomes `None`. -/
noncomputable def calculate_xirr (newton : NewtonSolver)
    (brentq : BrentqSolver) (now : Int)
    (transactions : Option (List Txn)) (current_value : ℚ) : Option ℚ :=
  match transactions with
  | none => none
  | some ts =>
    if ts.length = 0 then none
    else
      let fl := xirrFlows ts current_value now
      if fl.1.length < 2 then none
      else
        let days := daysSinceFirst fl.2
        match newton (xirrEquation fl.1 days) (1/10) with
        | .ok v => rateToResult v
        | .error _ =>
          match brentq (xirrEquation fl.1 days) (-999/1000) 10 with
          | .ok v => rateToResult v
          | .error _ => none

/-! ### Aggregate metrics (`calculate_portfolio_metrics`) -/

/-- The metrics dictionary. -/
structure PortfolioMetrics where
  total_investment : ℚ
  total_sells : ℚ
  current_value : ℚ
  total_return : ℚ
  total_return_percent : ℚ
  xirr : Option ℚ
deriving DecidableEq

/-- The initial all-zero metrics dictionary. -/
def zeroMetrics : PortfolioMetrics := ⟨0, 0, 0, 0, 0, none⟩

/-- `(buys['quantity'] * buys['price']).sum()` -/
def buyNotional (ts : List Txn) : ℚ :=
  ((ts.filter (fun t => t.transaction_type == TType.BUY)).map txnAmount).sum

/-- `(sells['quantity'] * sells['price']).sum()` -/
def sellNotional (ts : List Txn) : ℚ :=
  ((ts.filter (fun t => t.transaction_type == TType.SELL)).map txnAmount).sum

/-- `holdings_df['current_value'].sum()`: a pandas sum skips NaN entries,
modelled by summing the present (`some`) values. -/
def holdingsValue (hs : List ValuedHolding) : ℚ :=
  (hs.filterMap (fun h => h.current_value)).sum

/-- `calculate_portfolio_metrics(transactions_df, holdings_df)`.  Either
argument being `None` returns the zero metrics before anything is computed. -/
noncomputable def calculate_portfolio_metrics (newton : NewtonSolver) (brentq : BrentqSolver)
    (now : Int) (transactions : Option (List Txn))
    (holdings : Option (List ValuedHolding)) : PortfolioMetrics :=
  match transactions, holdings with
  | some ts, some hs =>
    let ti := if ts.isEmpty then 0 else buyNotional ts
    let tsl := if ts.isEmpty then 0 else sellNotional ts
    let cv := if hs.isEmpty then 0 else holdingsValue hs
    let tr := tsl + cv - ti
    let trp := if 0 < ti then tr / ti * 100 else 0
    ⟨ti, tsl, cv, tr, trp, calculate_xirr newton brentq now (some ts) cv⟩
  | _, _ => zeroMetrics

/-! ### Derived quantities used to state the invariants -/

/-- Keys of the lot dictionary, in insertion order. -/
def keysOf (m : LotsMap) : List String := m.map Prod.fst

/-- Total open quantity across every ticker's queue. -/
def totalAllQ (m : LotsMap) : ℚ := (m.map (fun e => totalQ e.2)).sum

/-- Quantity a single transaction removes from the open lots: zero for a BUY,
and for a SELL the decrease of its ticker's open quantity (so an oversell
remainder is excluded). -/
def matchedOf (m : LotsMap) (t : Txn) : ℚ :=
  match t.transaction_type with
  | .BUY => 0
  | .SELL =>
    totalQ (findLots m t.ticker)
      - totalQ (sellFromLots (findLots m t.ticker) t.quantity)

/-- Total SELL quantity actually matched while folding a transaction list
over a starting lot dictionary. -/
def sumMatched (m : LotsMap) : List Txn → ℚ
  | [] => 0
  | t :: ts => matchedOf m t + sumMatched (processTxn m t) ts

/-- Sum of all BUY quantities of a ledger. -/
def buyQtySum (ts : List Txn) : ℚ :=
  ((ts.filter (fun t => t.transaction_type == TType.BUY)).map Txn.quantity).sum

/-- Every lot quantity in the dictionary is positive. -/
def lotsPos (m : LotsMap) : Prop := ∀ e ∈ m, ∀ l ∈ e.2, 0 < l.1

/-- The lot dictionary after replaying a whole ledger. -/
def finalLots (ts : List Txn) : LotsMap := (sortByDate ts).foldl processTxn []

/-- Reduce the front lot of a queue by `c` (identity on the empty queue);
used to state the FIFO consumption shape. -/
def reduceHead : List Lot → ℚ → List Lot
  | [], _ => []
  | (lq, lp) :: rest, c => (lq - c, lp) :: rest

/-- The spec's FIFO fixture: BUYs (q=10,p=100) then (q=5,p=200), then
SELL q=12, all on one ticker on successive dates. -/
def exFifo : List Txn :=
  [⟨"X", 1, TType.BUY, 10, 100⟩, ⟨"X", 2, TType.BUY, 5, 200⟩,
   ⟨"X", 3, TType.SELL, 12, 150⟩]

/-- A fixture whose surviving lots are (q=3,p=200) and (q=4,p=300): an older
lot is bought and fully consumed, partially eating into the second lot. -/
def exAvgCost : List Txn :=
  [⟨"X", 1, TType.BUY, 5, 150⟩, ⟨"X", 2, TType.BUY, 3, 200⟩,
   ⟨"X", 3, TType.BUY, 4, 300⟩, ⟨"X", 4, TType.SELL, 5, 180⟩]

/-! ### Helper lemmas: lot arithmetic -/

lemma totalQ_nil : totalQ [] = 0 := rfl

lemma totalQ_cons (l : Lot) (ls : List Lot) : totalQ (l :: ls) = l.1 + totalQ ls := by
  simp [totalQ]

lemma totalQ_append (a b : List Lot) : totalQ (a ++ b) = totalQ a + totalQ b := by
  simp [totalQ]

lemma totalQ_nonneg {lots : List Lot} (h : ∀ l ∈ lots, 0 < l.1) : 0 ≤ totalQ lots := by
  induction lots with
  | nil => simp [totalQ_nil]
  | cons x xs ih =>
    rw [totalQ_cons]
    have hx := h x (List.mem_cons_self x xs)
    have := ih (fun l hl => h l (List.mem_cons_of_mem x hl))
    linarith

lemma totalQ_pos_of_ne_nil {lots : List Lot} (h : ∀ l ∈ lots, 0 < l.1)
    (hne : lots ≠ []) : 0 < totalQ lots := by
  cases lots with
  | nil => exact absurd rfl hne
  | cons x xs =>
    rw [totalQ_cons]
    have hx := h x (List.mem_cons_self x xs)
    have := totalQ_nonneg (fun l hl => h l (List.mem_cons_of_mem x hl))
    linarith

lemma totalQ_eq_zero_iff_nil {lots : List Lot} (h : ∀ l ∈ lots, 0 < l.1) :
    totalQ lots = 0 ↔ lots = [] := by
  constructor
  · intro h0
    by_contra hne
    exact absurd h0 (ne_of_gt (totalQ_pos_of_ne_nil h hne))
  · intro h0; subst h0; rfl

/-- The SELL loop keeps every stored lot quantity positive. -/
lemma sellFromLots_pos {lots : List Lot} (q : ℚ) (h : ∀ l ∈ lots, 0 < l.1) :
    ∀ l ∈ sellFromLots lots q, 0 < l.1 := by
  induction lots generalizing q with
  | nil => simp [sellFromLots]
  | cons hd tl ih =>
    obtain ⟨lq, lp⟩ := hd
    intro l hl
    rw [sellFromLots] at hl
    by_cases h0 : q ≤ 0
    · rw [if_pos h0] at hl
      exact h l hl
    · rw [if_neg h0] at hl
      by_cases hle : lq ≤ q
      · rw [if_pos hle] at hl
        exact ih (q - lq) (fun x hx => h x (List.mem_cons_of_mem _ hx)) l hl
      · rw [if_neg hle] at hl
        rcases List.mem_cons.mp hl with h1 | h2
        · subst h1
          have : q < lq := lt_of_not_le hle
          have : (0:ℚ) < lq - q := by linarith
          simpa using this
        · exact h l (List.mem_cons_of_mem _ h2)

/-- An oversold or exactly-covered SELL empties the queue. -/
lemma sellFromLots_all {lots : List Lot} {q : ℚ} (hpos : ∀ l ∈ lots, 0 < l.1)
    (h : totalQ lots ≤ q) : sellFromLots lots q = [] := by
  induction lots generalizing q with
  | nil => rfl
  | cons hd tl ih =>
    obtain ⟨lq, lp⟩ := hd
    rw [totalQ_cons] at h
    have hlq : 0 < lq := by
      have := hpos (lq, lp) (List.mem_cons_self _ _)
      simpa using this
    have htl : 0 ≤ totalQ tl :=
      totalQ_nonneg (fun l hl => hpos l (List.mem_cons_of_mem _ hl))
    have hq0 : ¬ q ≤ 0 := by push_neg; linarith
    have hle : lq ≤ q := by simp at h ⊢; linarith
    rw [sellFromLots, if_neg hq0, if_pos hle]
    exact ih (fun l hl => hpos l (List.mem_cons_of_mem _ hl)) (by linarith)

/-- The FIFO consumption shape: a SELL removes a whole prefix of the queue and
reduces the first surviving lot in place, leaving strictly newer lots
untouched. -/
lemma sellFromLots_shape {lots : List Lot} {q : ℚ} (hq : 0 ≤ q)
    (hpos : ∀ l ∈ lots, 0 < l.1) :
    ∃ n, n ≤ lots.length ∧ totalQ (lots.take n) ≤ q ∧
      sellFromLots lots q = reduceHead (lots.drop n) (q - totalQ (lots.take n)) ∧
      ∀ l ∈ (lots.drop n).head?, q - totalQ (lots.take n) < l.1 := by
  induction lots generalizing q with
  | nil =>
    refine ⟨0, by simp, by simpa [totalQ_nil] using hq, rfl, by simp⟩
  | cons hd tl ih =>
    obtain ⟨lq, lp⟩ := hd
    have hlq : 0 < lq := by
      have := hpos (lq, lp) (List.mem_cons_self _ _)
      simpa using this
    by_cases h0 : q ≤ 0
    · have hq0 : q = 0 := le_antisymm h0 hq
      subst hq0
      refine ⟨0, by simp, by simp [totalQ], ?_, ?_⟩
      · rw [sellFromLots, if_pos (le_refl 0)]
        simp [reduceHead, totalQ]
      · intro l hl
        simp at hl
        subst hl
        simpa using hlq
    · have hq' : 0 < q := lt_of_not_le h0
      by_cases hle : lq ≤ q
      · obtain ⟨n, hn, hsum, heq, hhead⟩ :=
          ih (q := q - lq) (by linarith)
            (fun l hl => hpos l (List.mem_cons_of_mem _ hl))
        refine ⟨n + 1, by simpa using hn, ?_, ?_, ?_⟩
        · rw [List.take_succ_cons, totalQ_cons]; linarith
        · rw [sellFromLots, if_neg h0, if_pos hle, List.drop_succ_cons,
            List.take_succ_cons, totalQ_cons]
          rw [heq]
          congr 1
          ring
        · intro l hl
          rw [List.drop_succ_cons] at hl
          have := hhead l hl
          rw [List.take_succ_cons, totalQ_cons]
          linarith
      · refine ⟨0, by simp, by simpa [totalQ_nil] using hq, ?_, ?_⟩
        · rw [sellFromLots, if_neg h0, if_neg hle]
          simp [reduceHead, totalQ]
        · intro l hl
          simp at hl
          subst hl
          simp [totalQ_nil]
          linarith [lt_of_not_le hle]

/-! ### Helper lemmas: the lot dictionary -/

lemma keysOf_cons (e : String × List Lot) (m : LotsMap) :
    keysOf (e :: m) = e.1 :: keysOf m := rfl

lemma any_key_iff (m : LotsMap) (tk : String) :
    (m.any (fun e => e.1 == tk) = true) ↔ tk ∈ keysOf m := by
  rw [List.any_eq_true]
  simp only [beq_iff_eq, keysOf, List.mem_map]

lemma findLots_cons (k : String) (L : List Lot) (m : LotsMap) (tk : String) :
    findLots ((k, L) :: m) tk = if k = tk then L else findLots m tk := by
  by_cases h : k = tk
  · subst h
    simp [findLots, List.find?]
  · have hb : (k == tk) = false := beq_eq_false_iff_ne.mpr h
    simp [findLots, List.find?, hb, h]

lemma findLots_not_mem {m : LotsMap} {tk : String} (h : tk ∉ keysOf m) :
    findLots m tk = [] := by
  induction m with
  | nil => rfl
  | cons e m ih =>
    obtain ⟨k, L⟩ := e
    rw [keysOf_cons, List.mem_cons] at h
    push_neg at h
    rw [findLots_cons, if_neg (fun hk => h.1 hk.symm)]
    exact ih h.2

lemma findLots_append_self {m : LotsMap} {tk : String} (L : List Lot)
    (h : tk ∉ keysOf m) : findLots (m ++ [(tk, L)]) tk = L := by
  induction m with
  | nil =>
    simp [findLots, List.find?]
  | cons e m ih =>
    obtain ⟨k, Lk⟩ := e
    rw [keysOf_cons, List.mem_cons] at h
    push_neg at h
    rw [List.cons_append, findLots_cons, if_neg (fun hk => h.1 hk.symm)]
    exact ih h.2

lemma updateLots_cons_ne {k : String} {tk : String} (L : List Lot) (m : LotsMap)
    (f : List Lot → List Lot) (h : k ≠ tk) :
    updateLots ((k, L) :: m) tk f = (k, L) :: updateLots m tk f := by
  simp [updateLots, h]

lemma updateLots_cons_self (k : String) (L : List Lot) (m : LotsMap)
    (f : List Lot → List Lot) :
    updateLots ((k, L) :: m) k f = (k, f L) :: updateLots m k f := by
  simp [updateLots]

lemma updateLots_not_mem {m : LotsMap} {tk : String} (f : List Lot → List Lot)
    (h : tk ∉ keysOf m) : updateLots m tk f = m := by
  induction m with
  | nil => rfl
  | cons e m ih =>
    obtain ⟨k, L⟩ := e
    rw [keysOf_cons, List.mem_cons] at h
    push_neg at h
    rw [updateLots_cons_ne L m f (fun hk => h.1 hk.symm)]
    rw [ih h.2]

lemma keysOf_updateLots (m : LotsMap) (tk : String) (f : List Lot → List Lot) :
    keysOf (updateLots m tk f) = keysOf m := by
  induction m with
  | nil => rfl
  | cons e m ih =>
    obtain ⟨k, L⟩ := e
    by_cases h : k = tk
    · subst h
      rw [updateLots_cons_self, keysOf_cons, keysOf_cons, ih]
    · rw [updateLots_cons_ne L m f h, keysOf_cons, keysOf_cons, ih]

lemma keysOf_ensureKey (m : LotsMap) (tk : String) :
    keysOf (ensureKey m tk)
      = if tk ∈ keysOf m then keysOf m else keysOf m ++ [tk] := by
  by_cases h : tk ∈ keysOf m
  · rw [ensureKey, if_pos ((any_key_iff m tk).mpr h), if_pos h]
  · rw [ensureKey, if_neg (fun ha => h ((any_key_iff m tk).mp ha)), if_neg h]
    simp [keysOf]

lemma mem_keysOf_ensureKey (m : LotsMap) (tk : String) :
    tk ∈ keysOf (ensureKey m tk) := by
  rw [keysOf_ensureKey]
  by_cases h : tk ∈ keysOf m
  · rwa [if_pos h]
  · rw [if_neg h]
    simp

lemma nodup_keysOf_ensureKey {m : LotsMap} (tk : String)
    (h : (keysOf m).Nodup) : (keysOf (ensureKey m tk)).Nodup := by
  rw [keysOf_ensureKey]
  by_cases hm : tk ∈ keysOf m
  · rwa [if_pos hm]
  · rw [if_neg hm]
    simpa [List.nodup_append] using ⟨h, hm⟩

lemma findLots_of_mem {m : LotsMap} {e : String × List Lot}
    (hnd : (keysOf m).Nodup) (he : e ∈ m) : findLots m e.1 = e.2 := by
  induction m with
  | nil => simp at he
  | cons e' m ih =>
    obtain ⟨k, L⟩ := e'
    rw [keysOf_cons, List.nodup_cons] at hnd
    rcases List.mem_cons.mp he with h | h
    · subst h
      rw [findLots_cons, if_pos rfl]
    · rw [findLots_cons]
      have hk : k ≠ e.1 := by
        intro hkk
        apply hnd.1
        rw [hkk]
        exact List.mem_map.mpr ⟨e, h, rfl⟩
      rw [if_neg hk]
      exact ih hnd.2 h

lemma findLots_ensureKey (m : LotsMap) (tk : String) :
    findLots (ensureKey m tk) tk = findLots m tk := by
  by_cases h : tk ∈ keysOf m
  · rw [ensureKey, if_pos ((any_key_iff m tk).mpr h)]
  · rw [ensureKey, if_neg (fun ha => h ((any_key_iff m tk).mp ha))]
    rw [findLots_append_self [] h, findLots_not_mem h]

lemma totalAllQ_nil : totalAllQ [] = 0 := rfl

lemma totalAllQ_cons (e : String × List Lot) (m : LotsMap) :
    totalAllQ (e :: m) = totalQ e.2 + totalAllQ m := by
  simp [totalAllQ]

lemma totalAllQ_append (a b : LotsMap) :
    totalAllQ (a ++ b) = totalAllQ a + totalAllQ b := by
  simp [totalAllQ]

lemma totalAllQ_ensureKey (m : LotsMap) (tk : String) :
    totalAllQ (ensureKey m tk) = totalAllQ m := by
  rw [ensureKey]
  by_cases h : m.any (fun e => e.1 == tk) = true
  · rw [if_pos h]
  · rw [if_neg h, totalAllQ_append]
    simp [totalAllQ, totalQ]

lemma totalAllQ_updateLots {m : LotsMap} {tk : String} (f : List Lot → List Lot)
    (hnd : (keysOf m).Nodup) (hmem : tk ∈ keysOf m) :
    totalAllQ (updateLots m tk f)
      = totalAllQ m - totalQ (findLots m tk) + totalQ (f (findLots m tk)) := by
  induction m with
  | nil => simp [keysOf] at hmem
  | cons e m ih =>
    obtain ⟨k, L⟩ := e
    rw [keysOf_cons, List.nodup_cons] at hnd
    by_cases h : k = tk
    · subst h
      rw [updateLots_cons_self, updateLots_not_mem f hnd.1,
        findLots_cons, if_pos rfl, totalAllQ_cons, totalAllQ_cons]
      simp only []
      ring
    · have hmem' : tk ∈ keysOf m := by
        rw [keysOf_cons, List.mem_cons] at hmem
        rcases hmem with h1 | h2
        · exact absurd h1.symm h
        · exact h2
      rw [updateLots_cons_ne L m f h, findLots_cons, if_neg h,
        totalAllQ_cons, totalAllQ_cons, ih hnd.2 hmem']
      ring

/-! ### Helper lemmas: one processing step and the whole fold -/

lemma nodup_keysOf_processTxn {m : LotsMap} (t : Txn)
    (h : (keysOf m).Nodup) : (keysOf (processTxn m t)).Nodup := by
  rw [processTxn]
  cases t.transaction_type <;>
    simpa [keysOf_updateLots] using nodup_keysOf_ensureKey t.ticker h

lemma totalAllQ_processTxn (m : LotsMap) (t : Txn)
    (hnd : (keysOf m).Nodup) :
    totalAllQ (processTxn m t)
      = totalAllQ m
        + (match t.transaction_type with
           | .BUY => t.quantity
           | .SELL => -(matchedOf m t)) := by
  rw [processTxn, matchedOf]
  have hnd' := nodup_keysOf_ensureKey (m := m) t.ticker hnd
  have hmem := mem_keysOf_ensureKey m t.ticker
  have hfind := findLots_ensureKey m t.ticker
  cases t.transaction_type with
  | BUY =>
    rw [totalAllQ_updateLots _ hnd' hmem, totalAllQ_ensureKey, hfind, totalQ_append]
    simp [totalQ]
    ring
  | SELL =>
    rw [totalAllQ_updateLots _ hnd' hmem, totalAllQ_ensureKey, hfind]
    ring

lemma lotsPos_processTxn {m : LotsMap} {t : Txn} (hm : lotsPos m)
    (hq : 0 < t.quantity) : lotsPos (processTxn m t) := by
  have hens : lotsPos (ensureKey m t.ticker) := by
    rw [ensureKey]
    by_cases h : m.any (fun e => e.1 == t.ticker) = true
    · rwa [if_pos h]
    · rw [if_neg h]
      intro e he l hl
      rcases List.mem_append.mp he with h1 | h2
      · exact hm e h1 l hl
      · simp at h2
        subst h2
        simp at hl
  rw [processTxn]
  cases t.transaction_type with
  | BUY =>
    intro e he l hl
    rcases List.mem_map.mp he with ⟨e', he', heq⟩
    by_cases hk : (e'.1 == t.ticker) = true
    · rw [if_pos hk] at heq
      subst heq
      simp at hl
      rcases hl with h1 | h2
      · exact hens e' he' l h1
      · rw [h2]
        exact hq
    · rw [if_neg hk] at heq
      subst heq
      exact hens e' he' l hl
  | SELL =>
    intro e he l hl
    rcases List.mem_map.mp he with ⟨e', he', heq⟩
    by_cases hk : (e'.1 == t.ticker) = true
    · rw [if_pos hk] at heq
      subst heq
      exact sellFromLots_pos t.quantity (hens e' he') l hl
    · rw [if_neg hk] at heq
      subst heq
      exact hens e' he' l hl

lemma lotsPos_foldl {l : List Txn} {m : LotsMap} (hm : lotsPos m)
    (hq : ∀ t ∈ l, 0 < t.quantity) : lotsPos (l.foldl processTxn m) := by
  induction l generalizing m with
  | nil => simpa using hm
  | cons t l ih =>
    rw [List.foldl_cons]
    exact ih (lotsPos_processTxn hm (hq t (List.mem_cons_self _ _)))
      (fun u hu => hq u (List.mem_cons_of_mem _ hu))

lemma nodup_keysOf_foldl {l : List Txn} {m : LotsMap}
    (h : (keysOf m).Nodup) : (keysOf (l.foldl processTxn m)).Nodup := by
  induction l generalizing m with
  | nil => simpa using h
  | cons t l ih =>
    rw [List.foldl_cons]
    exact ih (nodup_keysOf_processTxn t h)

/-- The conservation invariant of the fold: open quantity = opening quantity
plus BUY quantity added minus SELL quantity matched. -/
lemma totalAllQ_foldl (l : List Txn) (m : LotsMap)
    (hnd : (keysOf m).Nodup) :
    totalAllQ (l.foldl processTxn m)
      = totalAllQ m + buyQtySum l - sumMatched m l := by
  induction l generalizing m with
  | nil => simp [buyQtySum, sumMatched]
  | cons t l ih =>
    have hbuy : buyQtySum (t :: l)
        = (match t.transaction_type with
           | TType.BUY => t.quantity
           | TType.SELL => 0) + buyQtySum l := by
      rw [buyQtySum, buyQtySum]
      cases htt : t.transaction_type <;> simp [List.filter_cons, htt]
    rw [List.foldl_cons, ih (processTxn m t) (nodup_keysOf_processTxn t hnd),
      totalAllQ_processTxn m t hnd, hbuy]
    simp only [sumMatched]
    cases htt : t.transaction_type <;> simp only [matchedOf, htt] <;> ring

/-! ### Helper lemmas: emission of holdings -/

lemma holdingsOfLots_cons_pos {e : String × List Lot} {m : LotsMap}
    (hc : 0 < totalQ e.2) :
    holdingsOfLots (e :: m)
      = ⟨e.1, totalQ e.2, totalCost e.2 / totalQ e.2⟩ :: holdingsOfLots m := by
  simp [holdingsOfLots, List.filterMap_cons, hc]

lemma holdingsOfLots_cons_nonpos {e : String × List Lot} {m : LotsMap}
    (hc : ¬ 0 < totalQ e.2) :
    holdingsOfLots (e :: m) = holdingsOfLots m := by
  simp [holdingsOfLots, List.filterMap_cons, hc]

lemma mem_holdingsOfLots {m : LotsMap} {h : Holding}
    (hm : h ∈ holdingsOfLots m) :
    ∃ e ∈ m, 0 < totalQ e.2
      ∧ h = ⟨e.1, totalQ e.2, totalCost e.2 / totalQ e.2⟩ := by
  rw [holdingsOfLots] at hm
  rcases List.mem_filterMap.mp hm with ⟨e, he, heq⟩
  by_cases hc : 0 < totalQ e.2
  · rw [if_pos hc] at heq
    exact ⟨e, he, hc, (Option.some_inj.mp heq).symm⟩
  · rw [if_neg hc] at heq
    exact absurd heq (by simp)

lemma holdingsOfLots_mem_of_pos {m : LotsMap} {e : String × List Lot}
    (he : e ∈ m) (hc : 0 < totalQ e.2) :
    (⟨e.1, totalQ e.2, totalCost e.2 / totalQ e.2⟩ : Holding)
      ∈ holdingsOfLots m := by
  rw [holdingsOfLots]
  exact List.mem_filterMap.mpr ⟨e, he, by rw [if_pos hc]⟩

lemma holdingsOfLots_quantity_sum {m : LotsMap} (hpos : lotsPos m) :
    ((holdingsOfLots m).map Holding.quantity).sum = totalAllQ m := by
  induction m with
  | nil => rfl
  | cons e m ih =>
    have hpos' : lotsPos m := fun e' he' => hpos e' (List.mem_cons_of_mem _ he')
    have hnn : 0 ≤ totalQ e.2 :=
      totalQ_nonneg (hpos e (List.mem_cons_self _ _))
    rw [totalAllQ_cons]
    by_cases hc : 0 < totalQ e.2
    · rw [holdingsOfLots_cons_pos hc, List.map_cons, List.sum_cons, ih hpos']
    · have h0 : totalQ e.2 = 0 := le_antisymm (not_lt.mp hc) hnn
      rw [holdingsOfLots_cons_nonpos hc, ih hpos', h0]
      ring

lemma holdingsOfLots_tickers_sublist (m : LotsMap) :
    ((holdingsOfLots m).map Holding.ticker).Sublist (keysOf m) := by
  induction m with
  | nil => simp [holdingsOfLots, keysOf]
  | cons e m ih =>
    rw [keysOf_cons]
    by_cases hc : 0 < totalQ e.2
    · rw [holdingsOfLots_cons_pos hc, List.map_cons]
      exact List.Sublist.cons₂ _ ih
    · rw [holdingsOfLots_cons_nonpos hc]
      exact List.Sublist.cons _ ih

/-! ### Helper lemmas: the sort -/

lemma insertByDate_perm (t : Txn) (l : List Txn) :
    (insertByDate t l).Perm (t :: l) := by
  induction l with
  | nil => rfl
  | cons u us ih =>
    rw [insertByDate]
    by_cases h : u.date < t.date
    · rw [if_pos h]
      exact (ih.cons u).trans (List.Perm.swap t u us)
    · rw [if_neg h]

lemma sortByDate_perm (ts : List Txn) : (sortByDate ts).Perm ts := by
  induction ts with
  | nil => rfl
  | cons t ts ih =>
    rw [sortByDate]
    exact (insertByDate_perm t (sortByDate ts)).trans (ih.cons t)

lemma buyQtySum_sortByDate (ts : List Txn) :
    buyQtySum (sortByDate ts) = buyQtySum ts := by
  rw [buyQtySum, buyQtySum]
  exact (((sortByDate_perm ts).filter _).map _).sum_eq

/-! ### Helper lemmas: XIRR cash-flow construction -/

lemma xirrLoop_go (ts : List Txn) :
    ∀ acc : List ℚ × List Int,
      ts.foldl (fun acc t => (acc.1 ++ [txnCashFlow t], acc.2 ++ [t.date])) acc
        = (acc.1 ++ ts.map txnCashFlow, acc.2 ++ ts.map Txn.date) := by
  induction ts with
  | nil => intro acc; simp
  | cons t ts ih =>
    intro acc
    rw [List.foldl_cons, ih]
    simp

lemma xirrLoop_eq (ts : List Txn) :
    xirrLoop ts = (ts.map txnCashFlow, ts.map Txn.date) := by
  rw [xirrLoop, xirrLoop_go]
  simp

lemma xirrFlows_eq (ts : List Txn) (cv : ℚ) (now : Int) :
    xirrFlows ts cv now
      = (ts.map txnCashFlow ++ (if 0 < cv then [cv] else []),
         ts.map Txn.date ++ (if 0 < cv then [now] else [])) := by
  rw [xirrFlows, xirrLoop_eq]
  by_cases h : 0 < cv
  · simp [h]
  · simp [h]

lemma foldl_min_spec (ds : List Int) :
    ∀ a : Int, (ds.foldl min a = a ∨ ds.foldl min a ∈ ds)
      ∧ ds.foldl min a ≤ a ∧ ∀ x ∈ ds, ds.foldl min a ≤ x := by
  induction ds with
  | nil =>
    intro a
    exact ⟨Or.inl rfl, le_refl a, by simp⟩
  | cons d ds ih =>
    intro a
    rw [List.foldl_cons]
    obtain ⟨hmem, hle, hall⟩ := ih (min a d)
    refine ⟨?_, hle.trans (min_le_left a d), ?_⟩
    · rcases hmem with h | h
      · rcases le_total a d with had | had
        · exact Or.inl (by rw [h, min_eq_left had])
        · exact Or.inr (by rw [h, min_eq_right had]; exact List.mem_cons_self _ _)
      · exact Or.inr (List.mem_cons_of_mem _ h)
    · intro x hx
      rcases List.mem_cons.mp hx with h | h
      · rw [h]
        exact hle.trans (min_le_right a d)
      · exact hall x h

lemma listMinInt_mem {l : List Int} (h : l ≠ []) : listMinInt l ∈ l := by
  cases l with
  | nil => exact absurd rfl h
  | cons d ds =>
    rw [listMinInt]
    rcases (foldl_min_spec ds d).1 with h1 | h1
    · rw [h1]; exact List.mem_cons_self _ _
    · exact List.mem_cons_of_mem _ h1

lemma listMinInt_le {l : List Int} : ∀ x ∈ l, listMinInt l ≤ x := by
  cases l with
  | nil => simp
  | cons d ds =>
    intro x hx
    rw [listMinInt]
    obtain ⟨_, hle, hall⟩ := foldl_min_spec ds d
    rcases List.mem_cons.mp hx with h | h
    · subst h; exact hle
    · exact hall x h

lemma zero_mem_daysSinceFirst {l : List Int} (h : l ≠ []) :
    (0 : Int) ∈ daysSinceFirst l := by
  rw [daysSinceFirst]
  exact List.mem_map.mpr ⟨listMinInt l, listMinInt_mem h, by ring⟩

/-! ## The claims -/

/-- **C1.** `calculate_holdings_fifo` matches each SELL against lots in FIFO
order: the sold quantity consumes a prefix of the ticker's queue starting at
the front (oldest) lot; a lot whose quantity exceeds the remaining sell
quantity is reduced in place and survives together with every newer lot; no
newer lot is touched before every older lot is fully consumed (the result is
the old queue minus a fully-consumed prefix, with only its new front lot
reduced).  On the fixture with BUYs (q=10,p=100) then (q=5,p=200) followed by
SELL q=12, the single remaining lot is (q=3,p=200). -/
theorem sell_is_fifo (lots : List Lot) (q : ℚ) (hq : 0 ≤ q)
    (hpos : ∀ l ∈ lots, 0 < l.1) :
    (∃ n, n ≤ lots.length ∧ totalQ (lots.take n) ≤ q ∧
      sellFromLots lots q = reduceHead (lots.drop n) (q - totalQ (lots.take n)) ∧
      ∀ l ∈ (lots.drop n).head?, q - totalQ (lots.take n) < l.1)
    ∧ sellFromLots [((10 : ℚ), 100), (5, 200)] 12 = [(3, 200)]
    ∧ calculate_holdings_fifo (some exFifo) = [⟨"X", 3, 200⟩] := by
  refine ⟨sellFromLots_shape hq hpos, by norm_num [sellFromLots], ?_⟩
  norm_num [exFifo, calculate_holdings_fifo, sortByDate, insertByDate,
    holdingsOfLots, processTxn, ensureKey, updateLots, sellFromLots, findLots,
    totalQ, totalCost, List.find?, List.any, List.filterMap_cons]

theorem sell_is_fifo_witness :
    ((0 : ℚ) ≤ 12 ∧ ∀ l ∈ [((10 : ℚ), 100), (5, 200)], 0 < l.1)
    ∧ ((∃ n, n ≤ ([((10 : ℚ), 100), (5, 200)] : List Lot).length ∧
        totalQ (([((10 : ℚ), 100), (5, 200)] : List Lot).take n) ≤ 12 ∧
        sellFromLots [((10 : ℚ), 100), (5, 200)] 12
          = reduceHead (([((10 : ℚ), 100), (5, 200)] : List Lot).drop n)
              (12 - totalQ (([((10 : ℚ), 100), (5, 200)] : List Lot).take n)) ∧
        ∀ l ∈ ((([((10 : ℚ), 100), (5, 200)] : List Lot).drop n)).head?,
          12 - totalQ (([((10 : ℚ), 100), (5, 200)] : List Lot).take n) < l.1)
      ∧ sellFromLots [((10 : ℚ), 100), (5, 200)] 12 = [(3, 200)]
      ∧ calculate_holdings_fifo (some exFifo) = [⟨"X", 3, 200⟩]) :=
  ⟨⟨by norm_num, by norm_num⟩,
   sell_is_fifo [((10 : ℚ), 100), (5, 200)] 12 (by norm_num) (by norm_num)⟩

/-- **C6.** An oversell is silently truncated: whenever the sell quantity is
at least the total open quantity the queue is emptied and nothing else
happens (the model is total, so no exception can propagate), and a SELL of
quantity 50 on a never-bought ticker leaves no holding in the output. -/
theorem oversell_silent (lots : List Lot) (q : ℚ)
    (hpos : ∀ l ∈ lots, 0 < l.1) (h : totalQ lots ≤ q) :
    sellFromLots lots q = []
    ∧ calculate_holdings_fifo (some [⟨"Y", 1, TType.SELL, 50, 10⟩]) = [] := by
  refine ⟨sellFromLots_all hpos h, ?_⟩
  norm_num [calculate_holdings_fifo, sortByDate, insertByDate, holdingsOfLots,
    processTxn, ensureKey, updateLots, sellFromLots, findLots, totalQ,
    totalCost, List.find?, List.any, List.filterMap_cons]

theorem oversell_silent_witness :
    ((∀ l ∈ [((2 : ℚ), 7)], 0 < l.1) ∧ totalQ [((2 : ℚ), 7)] ≤ 5)
    ∧ (sellFromLots [((2 : ℚ), 7)] 5 = []
      ∧ calculate_holdings_fifo (some [⟨"Y", 1, TType.SELL, 50, 10⟩]) = []) :=
  ⟨⟨by norm_num, by norm_num [totalQ]⟩,
   oversell_silent [((2 : ℚ), 7)] 5 (by norm_num) (by norm_num [totalQ])⟩

/-- **C3.** Conservation and non-negativity: for every ledger with positive
quantities, the sum of BUY quantities minus the SELL quantity actually
matched against lots (oversell remainder excluded) equals the sum of the
emitted holding quantities, and every emitted holding quantity is
non-negative. -/
theorem fifo_conservation (ts : List Txn) (hq : ∀ t ∈ ts, 0 < t.quantity) :
    ((calculate_holdings_fifo (some ts)).map Holding.quantity).sum
      = buyQtySum ts - sumMatched [] (sortByDate ts)
    ∧ ∀ h ∈ calculate_holdings_fifo (some ts), 0 ≤ h.quantity := by
  constructor
  · by_cases h0 : ts.length = 0
    · have : ts = [] := List.length_eq_zero.mp h0
      subst this
      simp [calculate_holdings_fifo, buyQtySum, sumMatched, sortByDate]
    · rw [calculate_holdings_fifo]
      rw [if_neg h0]
      have hqs : ∀ t ∈ sortByDate ts, 0 < t.quantity := fun t ht =>
        hq t ((sortByDate_perm ts).mem_iff.mp ht)
      rw [holdingsOfLots_quantity_sum
          (lotsPos_foldl (by simp [lotsPos]) hqs),
        totalAllQ_foldl _ _ (by simp [keysOf]),
        buyQtySum_sortByDate]
      simp [totalAllQ_nil]
  · intro h hmem
    rw [calculate_holdings_fifo] at hmem
    by_cases h0 : ts.length = 0
    · rw [if_pos h0] at hmem
      simp at hmem
    · rw [if_neg h0] at hmem
      obtain ⟨e, _, hpos, heq⟩ := mem_holdingsOfLots hmem
      rw [heq]
      exact le_of_lt hpos

theorem fifo_conservation_witness :
    (∀ t ∈ ([⟨"A", 1, TType.BUY, 2, 10⟩, ⟨"A", 2, TType.SELL, 5, 12⟩] : List Txn),
        0 < t.quantity)
    ∧ (((calculate_holdings_fifo
          (some [⟨"A", 1, TType.BUY, 2, 10⟩, ⟨"A", 2, TType.SELL, 5, 12⟩])).map
            Holding.quantity).sum
        = buyQtySum [⟨"A", 1, TType.BUY, 2, 10⟩, ⟨"A", 2, TType.SELL, 5, 12⟩]
          - sumMatched []
              (sortByDate
                [⟨"A", 1, TType.BUY, 2, 10⟩, ⟨"A", 2, TType.SELL, 5, 12⟩])
      ∧ ∀ h ∈ calculate_holdings_fifo
            (some [⟨"A", 1, TType.BUY, 2, 10⟩, ⟨"A", 2, TType.SELL, 5, 12⟩]),
          0 ≤ h.quantity) :=
  ⟨by norm_num, fifo_conservation _ (by norm_num)⟩

/-- **C4.** Emission: for a positive-quantity ledger, the holdings list has
pairwise-distinct tickers; a ticker appears exactly when its final lot queue
is non-empty; every emitted holding carries the sum of its surviving lot
quantities, the lot-weighted average cost basis, and a positive quantity (so
no zero-quantity holding is emitted); and on a fixture whose surviving lots
are (q=3,p=200) and (q=4,p=300) the single holding is
(quantity 7, avg_cost_basis (3*200+4*300)/7). -/
theorem holdings_emission (ts : List Txn) (hq : ∀ t ∈ ts, 0 < t.quantity) :
    ((calculate_holdings_fifo (some ts)).map Holding.ticker).Nodup
    ∧ (∀ h ∈ calculate_holdings_fifo (some ts),
        0 < h.quantity
        ∧ h.quantity = totalQ (findLots (finalLots ts) h.ticker)
        ∧ h.avg_cost_basis
            = totalCost (findLots (finalLots ts) h.ticker) / h.quantity)
    ∧ (∀ tk, tk ∈ (calculate_holdings_fifo (some ts)).map Holding.ticker ↔
        ts ≠ [] ∧ tk ∈ keysOf (finalLots ts) ∧ findLots (finalLots ts) tk ≠ [])
    ∧ calculate_holdings_fifo (some exAvgCost)
        = [⟨"X", 7, (3 * 200 + 4 * 300) / 7⟩] := by
  have hnd : (keysOf (finalLots ts)).Nodup :=
    nodup_keysOf_foldl (by simp [keysOf])
  have hposm : lotsPos (finalLots ts) :=
    lotsPos_foldl (by simp [lotsPos])
      (fun t ht => hq t ((sortByDate_perm ts).mem_iff.mp ht))
  refine ⟨?_, ?_, ?_, ?_⟩
  · rw [calculate_holdings_fifo]
    by_cases h0 : ts.length = 0
    · rw [if_pos h0]; simp
    · rw [if_neg h0]
      exact (holdingsOfLots_tickers_sublist (finalLots ts)).nodup hnd
  · intro h hmem
    rw [calculate_holdings_fifo] at hmem
    by_cases h0 : ts.length = 0
    · rw [if_pos h0] at hmem
      simp at hmem
    · rw [if_neg h0] at hmem
      obtain ⟨e, he, hpos, heq⟩ := mem_holdingsOfLots hmem
      have hfind : findLots (finalLots ts) e.1 = e.2 :=
        findLots_of_mem hnd he
      rw [heq]
      exact ⟨hpos, by rw [hfind], by rw [hfind]⟩
  · intro tk
    constructor
    · intro htk
      rcases List.mem_map.mp htk with ⟨h, hmem, heq⟩
      rw [calculate_holdings_fifo] at hmem
      by_cases h0 : ts.length = 0
      · rw [if_pos h0] at hmem
        simp at hmem
      · rw [if_neg h0] at hmem
        obtain ⟨e, he, hpos, heqh⟩ := mem_holdingsOfLots hmem
        have hfind : findLots (finalLots ts) e.1 = e.2 :=
          findLots_of_mem hnd he
        have htk' : tk = e.1 := by rw [← heq, heqh]
        subst htk'
        refine ⟨fun hnil => h0 (by rw [hnil]; rfl), ?_, ?_⟩
        · exact List.mem_map_of_mem Prod.fst he
        · rw [hfind]
          intro hnil
          rw [hnil] at hpos
          exact absurd hpos (by simp [totalQ])
    · rintro ⟨hne, hkeys, hlots⟩
      rcases List.mem_map.mp hkeys with ⟨e, he, heq⟩
      subst heq
      have hfind : findLots (finalLots ts) e.1 = e.2 :=
        findLots_of_mem hnd he
      rw [hfind] at hlots
      have hpos : 0 < totalQ e.2 :=
        totalQ_pos_of_ne_nil (hposm e he) hlots
      have hmem := holdingsOfLots_mem_of_pos he hpos
      rw [calculate_holdings_fifo, if_neg (fun h0 => hne (List.length_eq_zero.mp h0))]
      exact List.mem_map_of_mem Holding.ticker hmem
  · norm_num [exAvgCost, calculate_holdings_fifo, sortByDate, insertByDate,
      holdingsOfLots, processTxn, ensureKey, updateLots, sellFromLots,
      findLots, totalQ, totalCost, List.find?, List.any, List.filterMap_cons]

theorem holdings_emission_witness :
    (∀ t ∈ exAvgCost, 0 < t.quantity)
    ∧ (((calculate_holdings_fifo (some exAvgCost)).map Holding.ticker).Nodup
      ∧ (∀ h ∈ calculate_holdings_fifo (some exAvgCost),
          0 < h.quantity
          ∧ h.quantity = totalQ (findLots (finalLots exAvgCost) h.ticker)
          ∧ h.avg_cost_basis
              = totalCost (findLots (finalLots exAvgCost) h.ticker) / h.quantity)
      ∧ (∀ tk, tk ∈ (calculate_holdings_fifo (some exAvgCost)).map Holding.ticker ↔
          exAvgCost ≠ [] ∧ tk ∈ keysOf (finalLots exAvgCost)
            ∧ findLots (finalLots exAvgCost) tk ≠ [])
      ∧ calculate_holdings_fifo (some exAvgCost)
          = [⟨"X", 7, (3 * 200 + 4 * 300) / 7⟩]) :=
  ⟨by norm_num [exAvgCost], holdings_emission exAvgCost (by norm_num [exAvgCost])⟩

/-- **C2.** `calculate_xirr` builds one signed cash flow per transaction
(BUY → `-quantity*price`, SELL → `+quantity*price`) dated on the transaction
date; exactly when `current_value > 0` one extra terminal flow of
`+current_value` dated `now` is appended; the solved equation discounts each
flow by `(1+rate) ^ (days_i/365)` where `days_i` is the whole-day difference
between that flow's date and the earliest date among all cash flows (so the
earliest flow has `days = 0`); and when the solver returns rate `r` the
function returns `r * 100`. -/
theorem xirr_cash_flow_spec (ts : List Txn) (cv : ℚ) (now : Int)
    (newton : NewtonSolver) (brentq : BrentqSolver) (r : ℚ)
    (hts : ts ≠ [])
    (hlen : 2 ≤ (xirrFlows ts cv now).1.length)
    (hn : newton
        (xirrEquation (xirrFlows ts cv now).1
          (daysSinceFirst (xirrFlows ts cv now).2)) (1 / 10)
        = Except.ok (FloatVal.fin r)) :
    (xirrFlows ts cv now).1
        = ts.map txnCashFlow ++ (if 0 < cv then [cv] else [])
    ∧ (xirrFlows ts cv now).2
        = ts.map Txn.date ++ (if 0 < cv then [now] else [])
    ∧ (∀ t : Txn, txnCashFlow t
        = if t.transaction_type = TType.BUY then -(t.quantity * t.price)
          else t.quantity * t.price)
    ∧ listMinInt (xirrFlows ts cv now).2 ∈ (xirrFlows ts cv now).2
    ∧ (∀ d ∈ (xirrFlows ts cv now).2, listMinInt (xirrFlows ts cv now).2 ≤ d)
    ∧ daysSinceFirst (xirrFlows ts cv now).2
        = (xirrFlows ts cv now).2.map
            (fun d => d - listMinInt (xirrFlows ts cv now).2)
    ∧ (0 : Int) ∈ daysSinceFirst (xirrFlows ts cv now).2
    ∧ (xirrFlows ts cv now).1.length = (xirrFlows ts cv now).2.length
    ∧ (∀ rate : ℝ,
        xirrEquation (xirrFlows ts cv now).1
            (daysSinceFirst (xirrFlows ts cv now).2) rate
          = (((xirrFlows ts cv now).1.zip (xirrFlows ts cv now).2).map
              (fun p => (p.1 : ℝ) / (1 + rate)
                  ^ (((p.2 - listMinInt (xirrFlows ts cv now).2 : Int) : ℝ)
                      / 365))).sum)
    ∧ calculate_xirr newton brentq now (some ts) cv = some (r * 100) := by
  have hne : (xirrFlows ts cv now).2 ≠ [] := by
    rw [xirrFlows_eq]
    simp [hts]
  have h0 : ¬ ts.length = 0 := fun h => hts (List.length_eq_zero.mp h)
  refine ⟨by rw [xirrFlows_eq], by rw [xirrFlows_eq], ?_, listMinInt_mem hne,
    listMinInt_le, rfl, zero_mem_daysSinceFirst hne, ?_, ?_, ?_⟩
  · intro t
    cases htt : t.transaction_type <;> simp [txnCashFlow, txnAmount, htt]
  · rw [xirrFlows_eq]
    by_cases h : 0 < cv <;> simp [h]
  · intro rate
    rw [xirrEquation, daysSinceFirst, List.zip_map_right, List.map_map]
    rfl
  · simp only [calculate_xirr, if_neg h0, if_neg (not_lt.mpr hlen), hn,
      rateToResult, FloatVal.times100]

theorem xirr_cash_flow_spec_witness :
    ([⟨"A", 0, TType.BUY, 1, 3⟩, ⟨"A", 10, TType.SELL, 1, 4⟩] : List Txn) ≠ []
    ∧ 2 ≤ (xirrFlows [⟨"A", 0, TType.BUY, 1, 3⟩, ⟨"A", 10, TType.SELL, 1, 4⟩]
        5 20).1.length
    ∧ calculate_xirr (fun _ _ => Except.ok (FloatVal.fin (1 / 20)))
        (fun _ _ _ => Except.error ()) 20
        (some [⟨"A", 0, TType.BUY, 1, 3⟩, ⟨"A", 10, TType.SELL, 1, 4⟩]) 5
      = some (1 / 20 * 100) :=
  ⟨by simp, by rw [xirrFlows_eq]; norm_num,
   (xirr_cash_flow_spec [⟨"A", 0, TType.BUY, 1, 3⟩, ⟨"A", 10, TType.SELL, 1, 4⟩]
      5 20 (fun _ _ => Except.ok (FloatVal.fin (1 / 20)))
      (fun _ _ _ => Except.error ()) (1 / 20) (by simp)
      (by rw [xirrFlows_eq]; norm_num) rfl).2.2.2.2.2.2.2.2.2⟩

/-- **C5.** `calculate_xirr` is total (every failure is caught) and returns
`none` when the input is `None`, when fewer than 2 cash flows exist, when
both solver stages raise, or when the solved rate is NaN or infinite; when
the Newton stage (seeded at rate 0.1) raises, the result is determined by the
fallback `brentq` call on exactly the bracket `(-0.999, 10)`: its finite rate
`r` yields `some (r*100)`, its raise or non-finite value yields `none`. -/
theorem xirr_failure_modes :
    (∀ (newton : NewtonSolver) (brentq : BrentqSolver) (now : Int) (cv : ℚ),
      calculate_xirr newton brentq now none cv = none)
    ∧ (∀ (newton : NewtonSolver) (brentq : BrentqSolver) (now : Int)
        (ts : List Txn) (cv : ℚ),
        (xirrFlows ts cv now).1.length < 2 →
        calculate_xirr newton brentq now (some ts) cv = none)
    ∧ (∀ (newton : NewtonSolver) (brentq : BrentqSolver) (now : Int)
        (ts : List Txn) (cv : ℚ),
        newton (xirrEquation (xirrFlows ts cv now).1
            (daysSinceFirst (xirrFlows ts cv now).2)) (1 / 10)
          = Except.error () →
        brentq (xirrEquation (xirrFlows ts cv now).1
            (daysSinceFirst (xirrFlows ts cv now).2)) (-999 / 1000) 10
          = Except.error () →
        calculate_xirr newton brentq now (some ts) cv = none)
    ∧ (∀ (newton : NewtonSolver) (brentq : BrentqSolver) (now : Int)
        (ts : List Txn) (cv : ℚ) (r : ℚ),
        newton (xirrEquation (xirrFlows ts cv now).1
            (daysSinceFirst (xirrFlows ts cv now).2)) (1 / 10)
          = Except.error () →
        brentq (xirrEquation (xirrFlows ts cv now).1
            (daysSinceFirst (xirrFlows ts cv now).2)) (-999 / 1000) 10
          = Except.ok (FloatVal.fin r) →
        ts ≠ [] → 2 ≤ (xirrFlows ts cv now).1.length →
        calculate_xirr newton brentq now (some ts) cv = some (r * 100))
    ∧ (∀ (newton : NewtonSolver) (brentq : BrentqSolver) (now : Int)
        (ts : List Txn) (cv : ℚ),
        (newton (xirrEquation (xirrFlows ts cv now).1
            (daysSinceFirst (xirrFlows ts cv now).2)) (1 / 10)
            = Except.ok FloatVal.nan
          ∨ newton (xirrEquation (xirrFlows ts cv now).1
              (daysSinceFirst (xirrFlows ts cv now).2)) (1 / 10)
            = Except.ok FloatVal.inf) →
        calculate_xirr newton brentq now (some ts) cv = none)
    ∧ (∀ (newton : NewtonSolver) (brentq : BrentqSolver) (now : Int)
        (ts : List Txn) (cv : ℚ),
        newton (xirrEquation (xirrFlows ts cv now).1
            (daysSinceFirst (xirrFlows ts cv now).2)) (1 / 10)
          = Except.error () →
        (brentq (xirrEquation (xirrFlows ts cv now).1
            (daysSinceFirst (xirrFlows ts cv now).2)) (-999 / 1000) 10
            = Except.ok FloatVal.nan
          ∨ brentq (xirrEquation (xirrFlows ts cv now).1
              (daysSinceFirst (xirrFlows ts cv now).2)) (-999 / 1000) 10
            = Except.ok FloatVal.inf) →
        calculate_xirr newton brentq now (some ts) cv = none)
    ∧ (∀ (newton : NewtonSolver) (b b' : BrentqSolver) (now : Int)
        (ts : List Txn) (cv : ℚ),
        b (xirrEquation (xirrFlows ts cv now).1
            (daysSinceFirst (xirrFlows ts cv now).2)) (-999 / 1000) 10
          = b' (xirrEquation (xirrFlows ts cv now).1
              (daysSinceFirst (xirrFlows ts cv now).2)) (-999 / 1000) 10 →
        calculate_xirr newton b now (some ts) cv
          = calculate_xirr newton b' now (some ts) cv) := by
  refine ⟨?_, ?_, ?_, ?_, ?_, ?_, ?_⟩
  · intro newton brentq now cv
    rfl
  · intro newton brentq now ts cv h2
    by_cases h0 : ts.length = 0
    · simp only [calculate_xirr, if_pos h0]
    · simp only [calculate_xirr, if_neg h0, if_pos h2]
  · intro newton brentq now ts cv hn hb
    by_cases h0 : ts.length = 0
    · simp only [calculate_xirr, if_pos h0]
    · by_cases h2 : (xirrFlows ts cv now).1.length < 2
      · simp only [calculate_xirr, if_neg h0, if_pos h2]
      · simp only [calculate_xirr, if_neg h0, if_neg h2, hn, hb]
  · intro newton brentq now ts cv r hn hb hts hlen
    have h0 : ¬ ts.length = 0 := fun h => hts (List.length_eq_zero.mp h)
    simp only [calculate_xirr, if_neg h0, if_neg (not_lt.mpr hlen), hn, hb,
      rateToResult, FloatVal.times100]
  · intro newton brentq now ts cv hn
    by_cases h0 : ts.length = 0
    · simp only [calculate_xirr, if_pos h0]
    · by_cases h2 : (xirrFlows ts cv now).1.length < 2
      · simp only [calculate_xirr, if_neg h0, if_pos h2]
      · rcases hn with hn | hn <;>
          simp only [calculate_xirr, if_neg h0, if_neg h2, hn, rateToResult,
            FloatVal.times100]
  · intro newton brentq now ts cv hn hb
    by_cases h0 : ts.length = 0
    · simp only [calculate_xirr, if_pos h0]
    · by_cases h2 : (xirrFlows ts cv now).1.length < 2
      · simp only [calculate_xirr, if_neg h0, if_pos h2]
      · rcases hb with hb | hb <;>
          simp only [calculate_xirr, if_neg h0, if_neg h2, hn, hb,
            rateToResult, FloatVal.times100]
  · intro newton b b' now ts cv heq
    by_cases h0 : ts.length = 0
    · simp only [calculate_xirr, if_pos h0]
    · by_cases h2 : (xirrFlows ts cv now).1.length < 2
      · simp only [calculate_xirr, if_neg h0, if_pos h2]
      · cases hn : newton (xirrEquation (xirrFlows ts cv now).1
            (daysSinceFirst (xirrFlows ts cv now).2)) (1 / 10) with
        | ok v => simp only [calculate_xirr, if_neg h0, if_neg h2, hn]
        | error e => simp only [calculate_xirr, if_neg h0, if_neg h2, hn, heq]

theorem xirr_failure_modes_witness :
    calculate_xirr (fun _ _ => Except.error ())
        (fun _ _ _ => Except.error ()) 7
        (some [⟨"B", 0, TType.BUY, 2, 5⟩, ⟨"B", 3, TType.SELL, 1, 6⟩]) 0 = none
    ∧ calculate_xirr (fun _ _ => Except.error ())
        (fun _ _ _ => Except.ok (FloatVal.fin (3 / 10))) 7
        (some [⟨"B", 0, TType.BUY, 2, 5⟩, ⟨"B", 3, TType.SELL, 1, 6⟩]) 0
      = some (3 / 10 * 100) :=
  ⟨xirr_failure_modes.2.2.1 (fun _ _ => Except.error ())
      (fun _ _ _ => Except.error ()) 7
      [⟨"B", 0, TType.BUY, 2, 5⟩, ⟨"B", 3, TType.SELL, 1, 6⟩] 0 rfl rfl,
   xirr_failure_modes.2.2.2.1 (fun _ _ => Except.error ())
      (fun _ _ _ => Except.ok (FloatVal.fin (3 / 10))) 7
      [⟨"B", 0, TType.BUY, 2, 5⟩, ⟨"B", 3, TType.SELL, 1, 6⟩] 0 (3 / 10)
      rfl rfl (by simp) (by rw [xirrFlows_eq]; norm_num)⟩

/-- **C7.** `calculate_portfolio_metrics` on non-`None` inputs returns
`total_investment` = Σ BUY `quantity*price`, `total_sells` = Σ SELL
`quantity*price`, `current_value` = Σ of the present `current_value` fields,
`total_return` = `total_sells + current_value - total_investment`, and
`total_return_percent` = `total_return/total_investment*100` when
`total_investment > 0`, else `0`. -/
theorem metrics_formulas (newton : NewtonSolver) (brentq : BrentqSolver)
    (now : Int) (ts : List Txn) (hs : List ValuedHolding) :
    (calculate_portfolio_metrics newton brentq now (some ts)
        (some hs)).total_investment
      = ((ts.filter (fun t => t.transaction_type == TType.BUY)).map
          (fun t => t.quantity * t.price)).sum
    ∧ (calculate_portfolio_metrics newton brentq now (some ts)
        (some hs)).total_sells
      = ((ts.filter (fun t => t.transaction_type == TType.SELL)).map
          (fun t => t.quantity * t.price)).sum
    ∧ (calculate_portfolio_metrics newton brentq now (some ts)
        (some hs)).current_value
      = (hs.filterMap (fun h => h.current_value)).sum
    ∧ (calculate_portfolio_metrics newton brentq now (some ts)
        (some hs)).total_return
      = (calculate_portfolio_metrics newton brentq now (some ts)
          (some hs)).total_sells
        + (calculate_portfolio_metrics newton brentq now (some ts)
            (some hs)).current_value
        - (calculate_portfolio_metrics newton brentq now (some ts)
            (some hs)).total_investment
    ∧ (calculate_portfolio_metrics newton brentq now (some ts)
        (some hs)).total_return_percent
      = (if 0 < (calculate_portfolio_metrics newton brentq now (some ts)
            (some hs)).total_investment
         then (calculate_portfolio_metrics newton brentq now (some ts)
              (some hs)).total_return
            / (calculate_portfolio_metrics newton brentq now (some ts)
                (some hs)).total_investment * 100
         else 0) := by
  have hbuy : buyNotional ts
      = ((ts.filter (fun t => t.transaction_type == TType.BUY)).map
          (fun t => t.quantity * t.price)).sum := rfl
  have hsell : sellNotional ts
      = ((ts.filter (fun t => t.transaction_type == TType.SELL)).map
          (fun t => t.quantity * t.price)).sum := rfl
  by_cases hts : ts.isEmpty <;> by_cases hhs : hs.isEmpty
  all_goals
    simp_all [calculate_portfolio_metrics, holdingsValue,
      List.isEmpty_iff, buyNotional, sellNotional]

/-- **C8.** With an empty price map, `calculate_portfolio_value` on any
non-empty holdings input completes (the model is total) and produces no
valued entry: every row's price-derived fields are missing. -/
theorem empty_price_map_unvalued (hs : List Holding) (hne : hs ≠ []) :
    (calculate_portfolio_value hs []).filterMap (fun vh => vh.current_value)
      = []
    ∧ ∀ vh ∈ calculate_portfolio_value hs [],
        vh.current_price = none ∧ vh.current_value = none
        ∧ vh.unrealized_pl = none ∧ vh.unrealized_pl_percent = none := by
  have hemp : ¬ hs.isEmpty = true := by
    simpa [List.isEmpty_iff] using hne
  rw [calculate_portfolio_value, if_neg hemp]
  constructor
  · simp [lookupPrice, List.filterMap_map, List.find?, Function.comp]
  · intro vh hvh
    rcases List.mem_map.mp hvh with ⟨h, _, heq⟩
    rw [← heq]
    simp [lookupPrice, List.find?]

theorem empty_price_map_unvalued_witness :
    ([⟨"A", 10, 50⟩] : List Holding) ≠ []
    ∧ ((calculate_portfolio_value [⟨"A", 10, 50⟩] []).filterMap
          (fun vh => vh.current_value) = []
      ∧ ∀ vh ∈ calculate_portfolio_value [⟨"A", 10, 50⟩] [],
          vh.current_price = none ∧ vh.current_value = none
          ∧ vh.unrealized_pl = none ∧ vh.unrealized_pl_percent = none) :=
  ⟨by simp, empty_price_map_unvalued [⟨"A", 10, 50⟩] (by simp)⟩

/-- **C10.** When either input of `calculate_portfolio_metrics` is `None`,
the all-zero metrics record with a null XIRR is returned and nothing is
raised (the model is total). -/
theorem metrics_none_inputs (newton : NewtonSolver) (brentq : BrentqSolver)
    (now : Int) :
    (∀ hs : Option (List ValuedHolding),
      calculate_portfolio_metrics newton brentq now none hs
        = ⟨0, 0, 0, 0, 0, none⟩)
    ∧ (∀ ts : Option (List Txn),
      calculate_portfolio_metrics newton brentq now ts none
        = ⟨0, 0, 0, 0, 0, none⟩) := by
  constructor
  · intro hs
    cases hs <;> rfl
  · intro ts
    cases ts <;> rfl

end Portfolio
